import Mathlib

/-!
Verification of the eve-mo market analyzer against its specification.

The development shallowly embeds the Python sources:
  * `src/analyzer/market_analyzer.py` — category-graph resolution
    (`is_under_target_root`, `discover_type_ids_for_target_market_groups`),
    the resilient fetch client (`esi_get`), the SQLite history store
    (`store_market_history`), and the feature engine
    (`compute_time_series_features`).
  * `src/market_analyzer.py` — the buy/sell classifier
    (`split_buy_sell_opportunities`); its feature engine is textually
    identical to the analyzer variant.
  * `src/backend/database.py` — the downstream query
    (`load_latest_analyzed`).

Machine floats are modelled by exact rationals (and reals where a square
root occurs); IEEE non-finite results (NaN, plus/minus infinity) are made
explicit through the `FVal` codomain of the z-score.
-/

namespace EveMo

/-! ## Category graph (src/analyzer/market_analyzer.py)

A market group as stored in the `groups` dict built by
`discover_type_ids_for_target_market_groups` (lines 181-185): display
name, optional parent id, directly assigned type ids.  The dict itself is
modelled by an association list with no duplicate keys (a Python dict
cannot hold a key twice); theorems that need this take the key-`Nodup`
hypothesis explicitly. -/
structure GroupInfo where
  name : String
  parent_id : Option Nat
  types : List Nat
deriving DecidableEq

/-- Lookup in the `groups` dict: `groups[gid]` / `gid in groups`. -/
def lookupGroup (groups : List (Nat × GroupInfo)) (gid : Nat) : Option GroupInfo :=
  (groups.find? (fun p => p.1 = gid)).map (fun p => p.2)

/-- The `while` loop of `is_under_target_root` (lines 205-213): walk parent
links upward, maintaining the `seen` set; stop on a `None`/missing parent,
on a revisit, or when a root id is reached.  The loop performs at most one
iteration per distinct key of `groups`, so fuel `groups.length + 1` is
always enough (`walkF_stable_of_ge`); the fuel argument only makes the
recursion structural. -/
def walkF (groups : List (Nat × GroupInfo)) (rootIds : List Nat) :
    Nat → List Nat → Option Nat → Bool
  | 0, _, _ => false
  | _ + 1, _, none => false
  | fuel + 1, seen, some c =>
    match lookupGroup groups c with
    | none => false
    | some info =>
      if c ∈ seen then false
      else if c ∈ rootIds then true
      else walkF groups rootIds fuel (c :: seen) info.parent_id

/-- Embedding of `is_under_target_root` (lines 202-215).  The Python
memoization cache `cache_is_target` stores previous results of this pure
function and is observationally transparent, so it is not modelled. -/
def is_under_target_root (groups : List (Nat × GroupInfo)) (rootIds : List Nat)
    (gid : Nat) : Bool :=
  walkF groups rootIds (groups.length + 1) [] (some gid)

/-- The chain of parent links starting at a node: the ids visited when
following `parent_id` while the current id resolves in `groups`, cut off
by the fuel.  Under acyclicity fuel `groups.length + 1` captures the whole
chain up to the terminal ancestor (`chainF_stable_of_nodup`). -/
def chainF (groups : List (Nat × GroupInfo)) : Nat → Option Nat → List Nat
  | 0, _ => []
  | _ + 1, none => []
  | fuel + 1, some c =>
    match lookupGroup groups c with
    | none => []
    | some info => c :: chainF groups fuel info.parent_id

/-- Keys of the `groups` dict. -/
def groupKeys (groups : List (Nat × GroupInfo)) : List Nat :=
  groups.map (fun p => p.1)

lemma chainF_succ_some (groups : List (Nat × GroupInfo)) (fuel : Nat) (a : Nat) :
    chainF groups (fuel + 1) (some a) =
      match lookupGroup groups a with
      | none => []
      | some info => a :: chainF groups fuel info.parent_id := rfl

lemma walkF_succ_some (groups : List (Nat × GroupInfo)) (rootIds : List Nat)
    (fuel : Nat) (seen : List Nat) (a : Nat) :
    walkF groups rootIds (fuel + 1) seen (some a) =
      match lookupGroup groups a with
      | none => false
      | some info =>
        if a ∈ seen then false
        else if a ∈ rootIds then true
        else walkF groups rootIds fuel (a :: seen) info.parent_id := rfl

lemma lookupGroup_mem_keys {groups : List (Nat × GroupInfo)} {c : Nat} {info : GroupInfo}
    (h : lookupGroup groups c = some info) : c ∈ groupKeys groups := by
  unfold lookupGroup at h
  rcases Option.map_eq_some'.mp h with ⟨p, hp, _⟩
  have hc : p.1 = c := by
    have := List.find?_some hp
    simpa using this
  have hmem : p ∈ groups := List.mem_of_find?_eq_some hp
  subst hc
  exact List.mem_map_of_mem (fun p => p.1) hmem

/-- Every element of a parent chain is a key of `groups`. -/
lemma chainF_subset_keys (groups : List (Nat × GroupInfo)) :
    ∀ fuel cur, ∀ c ∈ chainF groups fuel cur, c ∈ groupKeys groups := by
  intro fuel
  induction fuel with
  | zero => intro cur c hc; simp [chainF] at hc
  | succ n ih =>
    intro cur c hc
    match cur with
    | none => simp [chainF] at hc
    | some a =>
      unfold chainF at hc
      cases hl : lookupGroup groups a with
      | none => rw [hl] at hc; simp at hc
      | some info =>
        rw [hl] at hc
        simp at hc
        rcases hc with rfl | hc
        · exact lookupGroup_mem_keys hl
        · exact ih info.parent_id c hc

/-- A chain that has not consumed all its fuel is complete: more fuel does
not extend it. -/
lemma chainF_stable_of_length_lt (groups : List (Nat × GroupInfo)) :
    ∀ fuel cur, (chainF groups fuel cur).length < fuel →
      chainF groups (fuel + 1) cur = chainF groups fuel cur := by
  intro fuel
  induction fuel with
  | zero => intro cur h; simp at h
  | succ n ih =>
    intro cur h
    match cur with
    | none => simp [chainF]
    | some a =>
      unfold chainF at h ⊢
      cases hl : lookupGroup groups a with
      | none => simp
      | some info =>
        rw [hl] at h
        simp only [List.length_cons, Nat.add_lt_add_iff_right] at h
        simp only [ih info.parent_id h]

/-- An acyclic chain fits inside `groups.length` steps, hence the fuel
`groups.length + 1` is already complete. -/
lemma chainF_stable_of_nodup {groups : List (Nat × GroupInfo)} {gid : Nat}
    (hnd : (chainF groups (groups.length + 1) (some gid)).Nodup) :
    chainF groups (groups.length + 2) (some gid) =
      chainF groups (groups.length + 1) (some gid) := by
  apply chainF_stable_of_length_lt
  have hsub : ∀ c ∈ chainF groups (groups.length + 1) (some gid), c ∈ groupKeys groups :=
    chainF_subset_keys groups _ _
  have hlen : (chainF groups (groups.length + 1) (some gid)).length ≤
      (groupKeys groups).length :=
    (List.subperm_of_subset hnd hsub).length_le
  have hkl : (groupKeys groups).length = groups.length := by
    simp [groupKeys]
  omega

/-- On a duplicate-free chain the walk is exactly a search for a root id
along the chain: the `seen` set never fires. -/
lemma walkF_eq_any_of_nodup (groups : List (Nat × GroupInfo)) (rootIds : List Nat) :
    ∀ fuel seen cur, (chainF groups fuel cur).Nodup →
      (∀ c ∈ chainF groups fuel cur, c ∉ seen) →
      walkF groups rootIds fuel seen cur =
        (chainF groups fuel cur).any (fun c => c ∈ rootIds) := by
  intro fuel
  induction fuel with
  | zero => intro seen cur _ _; simp [walkF, chainF]
  | succ n ih =>
    intro seen cur hnd hdisj
    match cur with
    | none => simp [walkF, chainF]
    | some a =>
      cases hl : lookupGroup groups a with
      | none => simp [walkF_succ_some, chainF_succ_some, hl]
      | some info =>
        have hch : chainF groups (n + 1) (some a) =
            a :: chainF groups n info.parent_id := by
          rw [chainF_succ_some, hl]
        have hw : walkF groups rootIds (n + 1) seen (some a) =
            (if a ∈ seen then false
             else if a ∈ rootIds then true
             else walkF groups rootIds n (a :: seen) info.parent_id) := by
          rw [walkF_succ_some, hl]
        rw [hch] at hnd hdisj
        rw [hch, hw]
        have hseen : a ∉ seen := hdisj a (by simp)
        by_cases hroot : a ∈ rootIds
        · simp [hseen, hroot]
        · simp only [if_neg hseen, if_neg hroot, List.any_cons]
          have htl_nd : (chainF groups n info.parent_id).Nodup :=
            (List.nodup_cons.mp hnd).2
          have ha_tl : a ∉ chainF groups n info.parent_id :=
            (List.nodup_cons.mp hnd).1
          have htl_disj : ∀ c ∈ chainF groups n info.parent_id, c ∉ a :: seen := by
            intro c hc
            simp only [List.mem_cons, not_or]
            constructor
            · intro hca; subst hca; exact ha_tl hc
            · exact hdisj c (by simp [hc])
          rw [ih (a :: seen) info.parent_id htl_nd htl_disj]
          simp [hroot]

/-- Soundness of the walk regardless of cycles: a `true` answer always
exhibits a root id on the (fuelled) chain. -/
lemma walkF_true_root (groups : List (Nat × GroupInfo)) (rootIds : List Nat) :
    ∀ fuel seen cur, walkF groups rootIds fuel seen cur = true →
      ∃ c ∈ chainF groups fuel cur, c ∈ rootIds := by
  intro fuel
  induction fuel with
  | zero => intro seen cur h; simp [walkF] at h
  | succ n ih =>
    intro seen cur h
    match cur with
    | none => simp [walkF] at h
    | some a =>
      cases hl : lookupGroup groups a with
      | none =>
        rw [walkF_succ_some, hl] at h
        simp at h
      | some info =>
        rw [walkF_succ_some, hl] at h
        have hch : chainF groups (n + 1) (some a) =
            a :: chainF groups n info.parent_id := by
          rw [chainF_succ_some, hl]
        by_cases hseen : a ∈ seen
        · simp [hseen] at h
        · by_cases hroot : a ∈ rootIds
          · exact ⟨a, by rw [hch]; simp, hroot⟩
          · simp only [if_neg hseen, if_neg hroot] at h
            rcases ih (a :: seen) info.parent_id h with ⟨c, hc, hcr⟩
            exact ⟨c, by rw [hch]; simp [hc], hcr⟩

/-- One iteration of the walk consumes a fresh key of `groups`, so any fuel
larger than the number of keys not yet seen gives the same answer as one
more unit of fuel. -/
lemma walkF_stable_step (groups : List (Nat × GroupInfo)) (rootIds : List Nat) :
    ∀ fuel seen cur,
      ((groupKeys groups).toFinset \ seen.toFinset).card < fuel →
      walkF groups rootIds (fuel + 1) seen cur = walkF groups rootIds fuel seen cur := by
  intro fuel
  induction fuel with
  | zero => intro seen cur h; simp at h
  | succ n ih =>
    intro seen cur h
    match cur with
    | none => simp [walkF]
    | some a =>
      show walkF groups rootIds (n + 1 + 1) seen (some a) =
        walkF groups rootIds (n + 1) seen (some a)
      rw [walkF_succ_some, walkF_succ_some]
      cases hl : lookupGroup groups a with
      | none => simp
      | some info =>
        by_cases hseen : a ∈ seen
        · simp [hseen]
        · by_cases hroot : a ∈ rootIds
          · simp [hseen, hroot]
          · simp only [if_neg hseen, if_neg hroot]
            apply ih (a :: seen) info.parent_id
            have hak : a ∈ (groupKeys groups).toFinset := by
              simp [List.mem_toFinset]
              exact lookupGroup_mem_keys hl
            have hmem : a ∈ (groupKeys groups).toFinset \ seen.toFinset := by
              simp [Finset.mem_sdiff, hak, List.mem_toFinset, hseen]
            have hsub : (groupKeys groups).toFinset \ (a :: seen).toFinset =
                ((groupKeys groups).toFinset \ seen.toFinset).erase a := by
              ext x
              simp [Finset.mem_sdiff, Finset.mem_erase, List.mem_toFinset]
              tauto
            rw [hsub]
            have hpos : 0 < ((groupKeys groups).toFinset \ seen.toFinset).card :=
              Finset.card_pos.mpr ⟨a, hmem⟩
            have := Finset.card_erase_of_mem hmem
            omega

/-- The embedded walk is fuel-independent beyond `groups.length + 1` fuel:
this is exactly termination of the Python `while` loop within one
iteration per distinct group id. -/
lemma walkF_stable_of_ge (groups : List (Nat × GroupInfo)) (rootIds : List Nat)
    (gid : Nat) :
    ∀ fuel, groups.length + 1 ≤ fuel →
      walkF groups rootIds fuel [] (some gid) = is_under_target_root groups rootIds gid := by
  have hcard : ∀ seen : List Nat,
      ((groupKeys groups).toFinset \ seen.toFinset).card ≤ groups.length := by
    intro seen
    calc ((groupKeys groups).toFinset \ seen.toFinset).card
        ≤ (groupKeys groups).toFinset.card := Finset.card_le_card (Finset.sdiff_subset)
      _ ≤ (groupKeys groups).length := (groupKeys groups).toFinset_card_le
      _ = groups.length := by simp [groupKeys]
  intro fuel hfuel
  unfold is_under_target_root
  obtain ⟨k, rfl⟩ : ∃ k, fuel = (groups.length + 1) + k := by
    exact ⟨fuel - (groups.length + 1), by omega⟩
  induction k with
  | zero => rfl
  | succ m ihm =>
    have hstep : walkF groups rootIds ((groups.length + 1 + m) + 1) [] (some gid) =
        walkF groups rootIds (groups.length + 1 + m) [] (some gid) := by
      apply walkF_stable_step
      have := hcard ([] : List Nat)
      omega
    rw [show groups.length + 1 + (m + 1) = (groups.length + 1 + m) + 1 by omega, hstep]
    exact ihm (by omega)

/-- Demo category graph from the end-to-end scenario: root category 100
named "Ammunition & Charges" with no parent, child category 101 whose
parent is 100 and whose assigned items are 34 and 35. -/
def demoGroups : List (Nat × GroupInfo) :=
  [ (100, ⟨ "Ammunition & Charges", none, []⟩),
    (101, ⟨ "Ammo S", some 100, [34, 35]⟩)]

/-- Cyclic demo graph: 1 ↦ parent 2, 2 ↦ parent 1, no roots anywhere. -/
def cycGroups : List (Nat × GroupInfo) :=
  [ (1, ⟨ "a", some 2, []⟩),
    (2, ⟨ "b", some 1, []⟩)]

/-- C1: for every acyclic category graph (expressed as: the fuelled parent
chain starting at `gid` has no duplicates), the membership test
`is_under_target_root` returns `true` iff one of the root ids appears on
the chain of parent links from `gid` up to its terminal ancestor; the
second conjunct certifies that the fuelled chain is already complete
(extra fuel does not extend it), i.e. it does end at a node with a null or
missing parent. -/
theorem is_under_target_root_iff_root_on_chain
    (groups : List (Nat × GroupInfo)) (rootIds : List Nat) (gid : Nat)
    (hacyc : (chainF groups (groups.length + 1) (some gid)).Nodup) :
    (is_under_target_root groups rootIds gid = true ↔
      ∃ c ∈ chainF groups (groups.length + 1) (some gid), c ∈ rootIds) ∧
    chainF groups (groups.length + 2) (some gid) =
      chainF groups (groups.length + 1) (some gid) := by
  constructor
  · unfold is_under_target_root
    rw [walkF_eq_any_of_nodup groups rootIds (groups.length + 1) [] (some gid) hacyc
      (by intro c _ hc; simp at hc)]
    simp [List.any_eq_true]
  · exact chainF_stable_of_nodup hacyc

/-- Witness for C1 on the demo graph: the chain 101 → 100 is acyclic and
the root id 100 lies on it, so membership holds. -/
theorem is_under_target_root_iff_root_on_chain_witness :
    (chainF demoGroups 3 (some 101)).Nodup ∧
    ((is_under_target_root demoGroups [100] 101 = true ↔
        ∃ c ∈ chainF demoGroups 3 (some 101), c ∈ [100]) ∧
      chainF demoGroups 4 (some 101) = chainF demoGroups 3 (some 101)) :=
  ⟨by decide, is_under_target_root_iff_root_on_chain demoGroups [100] 101 (by decide)⟩

/-- C2: the ancestry walk terminates on every graph, cyclic ones included
— any fuel of at least `groups.length + 1` loop iterations yields the
walk's final answer — and a starting category whose upward walk revisits
an id before reaching a root (the fuelled chain has a duplicate and
carries no root id; by determinism of the parent map the chain beyond the
first revisit only repeats earlier ids) is reported as a non-member. -/
theorem walk_terminates_and_cycle_is_non_member
    (groups : List (Nat × GroupInfo)) (rootIds : List Nat) (gid : Nat) :
    (∀ fuel, groups.length + 1 ≤ fuel →
      walkF groups rootIds fuel [] (some gid) =
        is_under_target_root groups rootIds gid) ∧
    (¬ (chainF groups (groups.length + 1) (some gid)).Nodup →
      (∀ c ∈ chainF groups (groups.length + 1) (some gid), c ∉ rootIds) →
      is_under_target_root groups rootIds gid = false) := by
  refine ⟨walkF_stable_of_ge groups rootIds gid, fun _ hno => ?_⟩
  cases h : is_under_target_root groups rootIds gid with
  | false => rfl
  | true =>
    rcases walkF_true_root groups rootIds (groups.length + 1) [] (some gid) h with
      ⟨c, hc, hcr⟩
    exact absurd hcr (hno c hc)

/-- Witness for C2 on the two-node cycle 1 → 2 → 1: the walk with ample
fuel agrees with the embedded resolver and reports non-membership. -/
theorem walk_terminates_and_cycle_is_non_member_witness :
    walkF cycGroups [7] 9 [] (some 1) = is_under_target_root cycGroups [7] 1 ∧
    is_under_target_root cycGroups [7] 1 = false :=
  ⟨(walk_terminates_and_cycle_is_non_member cycGroups [7] 1).1 9 (by decide),
    (walk_terminates_and_cycle_is_non_member cycGroups [7] 1).2 (by decide) (by decide)⟩

/-- Root-group identification (lines 190-193): ids of the categories whose
name matches one of the configured root names exactly.  The Python code
collects them into a set; a duplicate-free representation is not needed
because the ids are only tested for membership. -/
def rootIdsOf (groups : List (Nat × GroupInfo)) (rootNames : List String) : List Nat :=
  (groups.filter (fun p => p.2.name ∈ rootNames)).map (fun p => p.1)
/-- The `type_ids` set built by the loop in lines 217-224, collected as a
list: the assigned type ids of every category that has a non-empty type
list and lies under a target root.  The Python code accumulates into a
set; since line 226 immediately sorts and deduplicates, accumulation order
is irrelevant and a plain concatenation gives the same sorted result. -/
def memberTypesList (groups : List (Nat × GroupInfo)) (rootIds : List Nat) : List Nat :=
  groups.foldl
    (fun acc p =>
      if p.2.types.isEmpty then acc
      else if is_under_target_root groups rootIds p.1 then acc ++ p.2.types
      else acc) []

/-- Embedding of `sorted(list(type_ids))` of line 226: the distinct collected type ids
in ascending order. -/
def sortedMemberTypes (groups : List (Nat × GroupInfo)) (rootIds : List Nat) : List Nat :=
  List.insertionSort (· ≤ ·) (memberTypesList groups rootIds).dedup

/-- Embedding of `discover_type_ids_for_target_market_groups`
(lines 189-235), starting from an already loaded `groups` dict: find the
root ids by name, abort with an empty result when none matches, otherwise
sort the union of member type ids ascending and cut it to `maxTypes`
entries when it is longer (lines 230-231). -/
def discover_type_ids_for_target_market_groups (groups : List (Nat × GroupInfo))
    (rootNames : List String) (maxTypes : Nat) : List Nat :=
  let rootIds := rootIdsOf groups rootNames
  if rootIds.isEmpty then []
  else
    let type_id_list := sortedMemberTypes groups rootIds
    if maxTypes < type_id_list.length then type_id_list.take maxTypes else type_id_list

/-- Outcome of the discovery phase of `main` (lines 535-544): either the
run aborts because no type ids were found, or it proceeds to fetch history
for exactly the discovered ids. -/
inductive RunStage where
  | aborted : RunStage
  | fetching : List Nat → RunStage
deriving DecidableEq

/-- The discovery-and-abort decision of `main` (lines 536-539): `return`
before `collect_and_store_all_history` whenever the discovered list is
empty. -/
def main_run (groups : List (Nat × GroupInfo)) (rootNames : List String)
    (maxTypes : Nat) : RunStage :=
  let type_ids := discover_type_ids_for_target_market_groups groups rootNames maxTypes
  if type_ids.isEmpty then RunStage.aborted else RunStage.fetching type_ids

/-- With no root ids the walk can never answer `true`. -/
lemma is_under_target_root_nil_roots (groups : List (Nat × GroupInfo)) (gid : Nat) :
    is_under_target_root groups [] gid = false := by
  cases h : is_under_target_root groups [] gid with
  | false => rfl
  | true =>
    rcases walkF_true_root groups [] (groups.length + 1) [] (some gid) h with ⟨c, _, hcr⟩
    simp at hcr

/-- Membership in the collected member type ids. -/
lemma mem_memberTypesList (groups : List (Nat × GroupInfo)) (rootIds : List Nat)
    (x : Nat) :
    x ∈ memberTypesList groups rootIds ↔
      ∃ p ∈ groups, p.2.types ≠ [] ∧
        is_under_target_root groups rootIds p.1 = true ∧ x ∈ p.2.types := by
  have key : ∀ (l : List (Nat × GroupInfo)) (acc : List Nat),
      (x ∈ l.foldl
        (fun acc p =>
          if p.2.types.isEmpty then acc
          else if is_under_target_root groups rootIds p.1 then acc ++ p.2.types
          else acc) acc) ↔
      (x ∈ acc ∨ ∃ p ∈ l, p.2.types ≠ [] ∧
        is_under_target_root groups rootIds p.1 = true ∧ x ∈ p.2.types) := by
    intro l
    induction l with
    | nil => intro acc; simp
    | cons q t ih =>
      intro acc
      rw [List.foldl_cons, ih]
      by_cases hemp : q.2.types.isEmpty
      · have : q.2.types = [] := List.isEmpty_iff.mp hemp
        simp [hemp, this]
      · have hne : q.2.types ≠ [] := fun h => hemp (by simp [h])
        by_cases hu : is_under_target_root groups rootIds q.1
        · simp only [if_neg hemp, if_pos hu, List.mem_append]
          constructor
          · rintro (⟨hx | hx⟩ | hx)
            · exact Or.inl hx
            · exact Or.inr ⟨q, by simp, hne, hu, hx⟩
            · rcases hx with ⟨p, hp, h1, h2, h3⟩
              exact Or.inr ⟨p, by simp [hp], h1, h2, h3⟩
          · rintro (hx | ⟨p, hp, h1, h2, h3⟩)
            · exact Or.inl (Or.inl hx)
            · rcases List.mem_cons.mp hp with rfl | hp
              · exact Or.inl (Or.inr h3)
              · exact Or.inr ⟨p, hp, h1, h2, h3⟩
        · simp only [if_neg hemp, if_neg hu]
          constructor
          · rintro (hx | ⟨p, hp, h1, h2, h3⟩)
            · exact Or.inl hx
            · exact Or.inr ⟨p, by simp [hp], h1, h2, h3⟩
          · rintro (hx | ⟨p, hp, h1, h2, h3⟩)
            · exact Or.inl hx
            · rcases List.mem_cons.mp hp with rfl | hp
              · exact absurd h2 (by simp [hu])
              · exact Or.inr ⟨p, hp, h1, h2, h3⟩
  rw [memberTypesList, key]
  simp

/-- Rank characterization of `take` on a strictly sorted list: an element
survives the cut iff fewer than `m` list elements are smaller. -/
lemma mem_take_sorted_lt :
    ∀ (l : List Nat), l.Sorted (· < ·) → ∀ (m x : Nat),
      (x ∈ l.take m ↔ x ∈ l ∧ (l.filter (fun y => y < x)).length < m) := by
  intro l
  induction l with
  | nil => intro _ m x; simp
  | cons a t ih =>
    intro hs m x
    have hord : ∀ b ∈ t, a < b := (List.sorted_cons.mp hs).1
    have hst : t.Sorted (· < ·) := (List.sorted_cons.mp hs).2
    cases m with
    | zero => simp
    | succ m =>
      rw [List.take_succ_cons]
      by_cases hxa : x = a
      · subst hxa
        have hfilter : (x :: t).filter (fun y => y < x) = [] := by
          rw [List.filter_cons]
          have h1 : ¬ (x < x) := lt_irrefl x
          simp only [h1, decide_eq_true_eq, if_false, decide_eq_false h1]
          rw [List.filter_eq_nil_iff.mpr]
          intro b hb
          simp [Nat.not_lt.mpr (le_of_lt (hord b hb))]
        simp [hfilter]
      · by_cases hxt : x ∈ t
        · have hax : a < x := hord x hxt
          have hfilter : ((a :: t).filter (fun y => y < x)).length =
              (t.filter (fun y => y < x)).length + 1 := by
            rw [List.filter_cons]
            simp [hax]
          rw [List.mem_cons]
          simp only [hxa, false_or]
          rw [List.mem_cons]
          simp only [hxa, false_or]
          rw [ih hst m x, hfilter]
          exact and_congr_right fun _ => by omega
        · have hnt : x ∉ List.take m t := fun h => hxt (List.mem_of_mem_take h)
          simp [hxa, hxt, hnt]

/-- The sorted member list is ascending without duplicates and holds
exactly the collected ids. -/
lemma sortedMemberTypes_spec (groups : List (Nat × GroupInfo)) (rootIds : List Nat) :
    (sortedMemberTypes groups rootIds).Sorted (· < ·) ∧
    (∀ x, x ∈ sortedMemberTypes groups rootIds ↔ x ∈ memberTypesList groups rootIds) := by
  have hperm : List.Perm (sortedMemberTypes groups rootIds)
      (memberTypesList groups rootIds).dedup :=
    List.perm_insertionSort (· ≤ ·) _
  have hnd : (sortedMemberTypes groups rootIds).Nodup :=
    hperm.nodup_iff.mpr (List.nodup_dedup _)
  have hsorted : (sortedMemberTypes groups rootIds).Sorted (· ≤ ·) :=
    List.sorted_insertionSort (· ≤ ·) _
  refine ⟨hsorted.lt_of_le hnd, fun x => ?_⟩
  rw [sortedMemberTypes, List.mem_insertionSort, List.mem_dedup]

/-- Filtering commutes with the sort-and-dedup normalization up to length. -/
lemma length_filter_sortedMemberTypes (groups : List (Nat × GroupInfo))
    (rootIds : List Nat) (x : Nat) :
    ((sortedMemberTypes groups rootIds).filter (fun y => y < x)).length =
      ((memberTypesList groups rootIds).dedup.filter (fun y => y < x)).length :=
  ((List.perm_insertionSort (· ≤ ·) _).filter _).length_eq

/-- Normal form of the discovery result: empty on a root mismatch, else
the ascending sorted member ids truncated to `maxTypes`. -/
lemma discover_eq_take (groups : List (Nat × GroupInfo)) (rootNames : List String)
    (maxTypes : Nat) :
    discover_type_ids_for_target_market_groups groups rootNames maxTypes =
      (if (rootIdsOf groups rootNames).isEmpty then []
       else (sortedMemberTypes groups (rootIdsOf groups rootNames)).take maxTypes) := by
  unfold discover_type_ids_for_target_market_groups
  by_cases h : (rootIdsOf groups rootNames).isEmpty
  · simp [h]
  · simp only [h, if_false]
    by_cases hlen : maxTypes < (sortedMemberTypes groups (rootIdsOf groups rootNames)).length
    · simp [hlen]
    · simp [hlen, List.take_of_length_le (Nat.le_of_not_lt hlen)]

/-- With no root ids nothing is collected. -/
lemma memberTypesList_nil_roots (groups : List (Nat × GroupInfo)) :
    memberTypesList groups [] = [] := by
  rw [List.eq_nil_iff_forall_not_mem]
  intro x hx
  rcases (mem_memberTypesList groups [] x).mp hx with ⟨p, _, _, hu, _⟩
  rw [is_under_target_root_nil_roots] at hu
  exact Bool.false_ne_true hu

/-- C6: the discovery phase returns the union of assigned item ids over
all member categories as a duplicate-free ascending list; an id is in the
result iff some member category assigns it and fewer than `maxTypes`
distinct collected ids are smaller (truncation keeps the first `maxTypes`
ids in ascending order); and on the end-to-end scenario graph — root
"Ammunition & Charges" (id 100, parent null), child id 101 (parent 100,
items [34, 35]) — the resolver run with limit 1000 returns `[34, 35]`. -/
theorem discover_type_ids_sorted_dedup_truncated
    (groups : List (Nat × GroupInfo)) (rootNames : List String) (maxTypes : Nat) :
    (discover_type_ids_for_target_market_groups groups rootNames maxTypes).Sorted (· ≤ ·) ∧
    (discover_type_ids_for_target_market_groups groups rootNames maxTypes).Nodup ∧
    (∀ x, x ∈ discover_type_ids_for_target_market_groups groups rootNames maxTypes ↔
      x ∈ memberTypesList groups (rootIdsOf groups rootNames) ∧
      ((memberTypesList groups (rootIdsOf groups rootNames)).dedup.filter
        (fun y => y < x)).length < maxTypes) ∧
    discover_type_ids_for_target_market_groups demoGroups
      [ "Ammunition & Charges"] 1000 = [34, 35] := by
  rw [discover_eq_take]
  rcases sortedMemberTypes_spec groups (rootIdsOf groups rootNames) with ⟨hsorted, hmem⟩
  by_cases h : (rootIdsOf groups rootNames).isEmpty
  · refine ⟨by simp [h], by simp [h], ?_, by decide⟩
    intro x
    have hnil : rootIdsOf groups rootNames = [] := List.isEmpty_iff.mp h
    simp [h, hnil, memberTypesList_nil_roots]
  · refine ⟨?_, ?_, ?_, by decide⟩
    · rw [if_neg h]
      exact (hsorted.le_of_lt).sublist (List.take_sublist _ _)
    · rw [if_neg h]
      exact hsorted.nodup.sublist (List.take_sublist _ _)
    · intro x
      rw [if_neg h]
      rw [mem_take_sorted_lt _ hsorted maxTypes x, hmem x,
        length_filter_sortedMemberTypes]

/-- C7: when no loaded category name matches a configured root name, root
identification is empty, discovery returns the empty list, and the run
aborts before any per-item history fetch work (nothing in `main` retries
this configuration failure). -/
theorem no_root_name_match_aborts_run
    (groups : List (Nat × GroupInfo)) (rootNames : List String) (maxTypes : Nat)
    (h : ∀ p ∈ groups, p.2.name ∉ rootNames) :
    rootIdsOf groups rootNames = [] ∧
    discover_type_ids_for_target_market_groups groups rootNames maxTypes = [] ∧
    main_run groups rootNames maxTypes = RunStage.aborted := by
  have hroot : rootIdsOf groups rootNames = [] := by
    unfold rootIdsOf
    rw [List.filter_eq_nil_iff.mpr, List.map_nil]
    intro p hp
    simpa using h p hp
  have hdisc : discover_type_ids_for_target_market_groups groups rootNames maxTypes = [] := by
    unfold discover_type_ids_for_target_market_groups
    simp [hroot]
  refine ⟨hroot, hdisc, ?_⟩
  unfold main_run
  simp [hdisc]

/-- Witness for C7: the demo graph holds no category named
"Ship Equipment", so a run configured with that root name aborts. -/
theorem no_root_name_match_aborts_run_witness :
    rootIdsOf demoGroups [ "Ship Equipment"] = [] ∧
    discover_type_ids_for_target_market_groups demoGroups [ "Ship Equipment"] 2000 = [] ∧
    main_run demoGroups [ "Ship Equipment"] 2000 = RunStage.aborted :=
  no_root_name_match_aborts_run demoGroups [ "Ship Equipment"] 2000 (by decide)

/-! ## Resilient fetch client (esi_get, src/analyzer/market_analyzer.py
lines 92-119) -/

/-- Outcome of one HTTP attempt as seen by `esi_get`: either
`requests.get` raises (network-level exception, line 102) or it returns a
response bearing a status code. -/
inductive Att where
  | exn : Att
  | resp : Nat → Att
deriving DecidableEq

/-- The status codes the retry loop sleeps and retries on (line 107):
420, 429, 500, 502, 503, 504. -/
def retryableStatus (s : Nat) : Bool :=
  s = 420 || s = 429 || s = 500 || s = 502 || s = 503 || s = 504

/-- The retry class asserted by the specification, written from its words
for comparison with the code: the dedicated rate-limited status (429)
plus the generic 5xx server-error class. -/
def claimRetryClass (s : Nat) : Bool :=
  s = 429 || (500 ≤ s && s ≤ 599)

/-- Whether the scripted attempt `a` is one the loop retries after. -/
def attemptRetryable (script : Nat → Att) (a : Nat) : Bool :=
  match script a with
  | Att.exn => true
  | Att.resp s => retryableStatus s

/-- Backoff the loop sleeps after retried attempt `a`: `2 * attempt`
seconds after an exception (line 104), `5 * attempt` seconds after a
retryable status (line 109). -/
def backoffOf (script : Nat → Att) (a : Nat) : Nat :=
  match script a with
  | Att.exn => 2 * a
  | Att.resp _ => 5 * a

/-- The `for attempt in range(1, MAX_RETRIES + 1)` loop of `esi_get`
(lines 99-116), run over the list of attempt numbers against a script
assigning each attempt its outcome.  The first component is the attempt
number whose response is returned (`none` for every failure mode: the
Python function never raises and returns `None` both on a definitive
status, line 114, and on exhaustion, line 119); the second component
records the backoff sleeps emitted, in order. -/
def esiRun (script : Nat → Att) : List Nat → Option Nat × List Nat
  | [] => (none, [])
  | a :: rest =>
    match script a with
    | Att.exn =>
      let r := esiRun script rest
      (r.1, 2 * a :: r.2)
    | Att.resp s =>
      if retryableStatus s then
        let r := esiRun script rest
        (r.1, 5 * a :: r.2)
      else if s ≠ 200 then (none, [])
      else (some a, [])

/-- Embedding of `esi_get` (lines 92-119): run the retry loop over the
attempt numbers `1, ..., maxRetries`. -/
def esi_get (script : Nat → Att) (maxRetries : Nat) : Option Nat × List Nat :=
  esiRun script (List.range' 1 maxRetries)

/-- A run whose attempts are all retryable failures exhausts its list and
returns no payload, having slept once per attempt. -/
lemma esiRun_all_retryable (script : Nat → Att) :
    ∀ as : List Nat, (∀ a ∈ as, attemptRetryable script a = true) →
      esiRun script as = (none, as.map (backoffOf script)) := by
  intro as
  induction as with
  | nil => intro _; rfl
  | cons a rest ih =>
    intro h
    have ha := h a (by simp)
    cases hs : script a with
    | exn =>
      simp only [esiRun, hs, List.map_cons]
      rw [ih (fun b hb => h b (by simp [hb]))]
      simp [backoffOf, hs]
    | resp s =>
      have hr : retryableStatus s = true := by
        unfold attemptRetryable at ha
        rw [hs] at ha
        exact ha
      simp only [esiRun, hs, hr, if_true, List.map_cons]
      rw [ih (fun b hb => h b (by simp [hb]))]
      simp [backoffOf, hs]

/-- After a retryable prefix, a 200 response is returned as the payload. -/
lemma esiRun_prefix_success (script : Nat → Att) :
    ∀ (as₁ : List Nat) (k : Nat) (as₂ : List Nat),
      (∀ a ∈ as₁, attemptRetryable script a = true) →
      script k = Att.resp 200 →
      esiRun script (as₁ ++ k :: as₂) = (some k, as₁.map (backoffOf script)) := by
  intro as₁
  induction as₁ with
  | nil =>
    intro k as₂ _ hk
    simp only [List.nil_append, esiRun, hk]
    norm_num [retryableStatus]
  | cons a rest ih =>
    intro k as₂ h hk
    have ha := h a (by simp)
    cases hs : script a with
    | exn =>
      simp only [List.cons_append, esiRun, hs, List.append_eq]
      rw [ih k as₂ (fun b hb => h b (by simp [hb])) hk]
      simp [backoffOf, hs]
    | resp s =>
      have hr : retryableStatus s = true := by
        unfold attemptRetryable at ha
        rw [hs] at ha
        exact ha
      simp only [List.cons_append, esiRun, hs, hr, if_true, List.append_eq]
      rw [ih k as₂ (fun b hb => h b (by simp [hb])) hk]
      simp [backoffOf, hs]

/-- After a retryable prefix, any non-200 non-retryable status stops the
loop at once with no payload and no further sleep. -/
lemma esiRun_prefix_definitive (script : Nat → Att) :
    ∀ (as₁ : List Nat) (k : Nat) (as₂ : List Nat) (s : Nat),
      (∀ a ∈ as₁, attemptRetryable script a = true) →
      script k = Att.resp s → retryableStatus s = false → s ≠ 200 →
      esiRun script (as₁ ++ k :: as₂) = (none, as₁.map (backoffOf script)) := by
  intro as₁
  induction as₁ with
  | nil =>
    intro k as₂ s _ hk hnr hne
    simp only [List.nil_append, esiRun, hk, hnr]
    simp [hne]
  | cons a rest ih =>
    intro k as₂ s h hk hnr hne
    have ha := h a (by simp)
    cases hs : script a with
    | exn =>
      simp only [List.cons_append, esiRun, hs, List.append_eq]
      rw [ih k as₂ s (fun b hb => h b (by simp [hb])) hk hnr hne]
      simp [backoffOf, hs]
    | resp s' =>
      have hr : retryableStatus s' = true := by
        unfold attemptRetryable at ha
        rw [hs] at ha
        exact ha
      simp only [List.cons_append, esiRun, hs, hr, if_true, List.append_eq]
      rw [ih k as₂ s (fun b hb => h b (by simp [hb])) hk hnr hne]
      simp [backoffOf, hs]

/-- Splitting the attempt numbers around a chosen attempt `k`. -/
lemma range'_split_at (k maxRetries : Nat) (h1 : 1 ≤ k) (h2 : k ≤ maxRetries) :
    List.range' 1 maxRetries =
      List.range' 1 (k - 1) ++ k :: List.range' (k + 1) (maxRetries - k) := by
  have happ := List.range'_append 1 (k - 1) (maxRetries - (k - 1)) 1
  rw [show 1 + 1 * (k - 1) = k by omega,
    show maxRetries - (k - 1) = (maxRetries - k) + 1 by omega,
    List.range'_succ,
    show maxRetries - k + 1 + (k - 1) = maxRetries by omega] at happ
  exact happ.symm

/-- C5 (amended): `esi_get` never raises (it is a total function into an
`Option`); it retries exactly on network-level exceptions and on the
statuses 420, 429, 500, 502, 503, 504, sleeping a backoff linear in the
attempt number (base 2 seconds for exceptions, 5 seconds for retryable
statuses); any other non-200 status returns no-result at once with no
further attempt; and exhausting all `maxRetries` attempts returns
no-result. -/
theorem esi_get_retry_policy (script : Nat → Att) (maxRetries : Nat) :
    (∀ k, 1 ≤ k → k ≤ maxRetries →
      (∀ j, 1 ≤ j → j < k → attemptRetryable script j = true) →
      script k = Att.resp 200 →
      esi_get script maxRetries =
        (some k, (List.range' 1 (k - 1)).map (backoffOf script))) ∧
    (∀ k s, 1 ≤ k → k ≤ maxRetries →
      (∀ j, 1 ≤ j → j < k → attemptRetryable script j = true) →
      script k = Att.resp s → retryableStatus s = false → s ≠ 200 →
      esi_get script maxRetries =
        (none, (List.range' 1 (k - 1)).map (backoffOf script))) ∧
    ((∀ j, 1 ≤ j → j ≤ maxRetries → attemptRetryable script j = true) →
      esi_get script maxRetries =
        (none, (List.range' 1 maxRetries).map (backoffOf script))) ∧
    (∀ a, backoffOf script a = 2 * a ∨ backoffOf script a = 5 * a) := by
  have hpre : ∀ k, (∀ j, 1 ≤ j → j < k → attemptRetryable script j = true) →
      ∀ a ∈ List.range' 1 (k - 1), attemptRetryable script a = true := by
    intro k hk a ha
    have := List.mem_range'.mp ha
    rcases this with ⟨i, hi, rfl⟩
    exact hk _ (by omega) (by omega)
  refine ⟨?_, ?_, ?_, ?_⟩
  · intro k h1 h2 hj hk
    unfold esi_get
    rw [range'_split_at k maxRetries h1 h2]
    exact esiRun_prefix_success script _ k _ (hpre k hj) hk
  · intro k s h1 h2 hj hk hnr hne
    unfold esi_get
    rw [range'_split_at k maxRetries h1 h2]
    exact esiRun_prefix_definitive script _ k _ s (hpre k hj) hk hnr hne
  · intro hall
    unfold esi_get
    apply esiRun_all_retryable
    intro a ha
    have := List.mem_range'.mp ha
    rcases this with ⟨i, hi, rfl⟩
    exact hall _ (by omega) (by omega)
  · intro a
    unfold backoffOf
    cases script a with
    | exn => exact Or.inl rfl
    | resp s => exact Or.inr rfl

/-- Script whose first attempt yields HTTP 501 and whose second would
yield HTTP 200. -/
def cxScriptA : Nat → Att := fun a => if a = 1 then Att.resp 501 else Att.resp 200

/-- Script whose first attempt yields HTTP 420 and whose second yields
HTTP 200. -/
def cxScriptB : Nat → Att := fun a => if a = 1 then Att.resp 420 else Att.resp 200

/-- C5 counterexample: the claim's retry class ("the dedicated
rate-limited status and the generic 5xx server-error class") disagrees
with the code on concrete statuses.  501 lies in the claimed 5xx retry
class, yet `esi_get` treats it as definitive: with a 501 then a 200
scripted, it returns no-result immediately (no sleep, no second attempt)
instead of retrying into the 200.  Conversely 420 is outside the claimed
class — per the claim an "other non-success status" returning no-result
immediately — yet the code retries it and returns the second attempt's
200 payload after one backoff sleep. -/
theorem esi_get_claim_retry_class_counterexample :
    claimRetryClass 501 = true ∧ retryableStatus 501 = false ∧
    esi_get cxScriptA 3 = (none, []) ∧
    claimRetryClass 420 = false ∧ retryableStatus 420 = true ∧
    esi_get cxScriptB 3 = (some 2, [5]) := by
  refine ⟨rfl, rfl, ?_, rfl, rfl, ?_⟩ <;> decide

/-- Witness for C5: a 420-then-200 run retries once and succeeds, a
501-then-200 run fails definitively at once, and an all-exception run
exhausts its three attempts with growing backoffs. -/
theorem esi_get_retry_policy_witness :
    esi_get cxScriptB 3 = (some 2, [5]) ∧
    esi_get cxScriptA 3 = (none, []) ∧
    esi_get (fun _ => Att.exn) 3 = (none, [2, 4, 6]) := by
  refine ⟨?_, ?_, ?_⟩
  · exact (esi_get_retry_policy cxScriptB 3).1 2 (by omega) (by omega)
      (fun j h1 h2 => by
        have : j = 1 := by omega
        subst this
        decide) (by decide)
  · exact (esi_get_retry_policy cxScriptA 3).2.1 1 501 (by omega) (by omega)
      (fun j h1 h2 => by omega) (by decide) (by decide) (by decide)
  · exact (esi_get_retry_policy (fun _ => Att.exn) 3).2.2.1 (fun j _ _ => rfl)

/-! ## Time-series feature engine (compute_time_series_features,
src/analyzer/market_analyzer.py lines 413-441, textually identical in
src/market_analyzer.py lines 186-214)

`compute_time_series_features` groups the rows by (region_id, type_id),
orders each group by date and applies `_apply_group` columnwise.  The
definitions below embed the columns produced by `_apply_group` as
functions of a group's date-ordered `average` column (`xs`, `none` for a
SQL NULL / pandas NaN), the window size and the row position `i`.  pandas
`rolling(window, min_periods=5)` statistics at position `i` range over
the trailing `window` entries ending at and including `i`, count only
non-null entries against `min_periods = 5` (the code fixes
`min_periods=5`), and aggregate over those non-null values; `std` is the
sample standard deviation (denominator n - 1). -/

/-- The trailing window of raw entries ending at and including position
`i`. -/
def trailingWindow (xs : List (Option ℚ)) (w i : Nat) : List (Option ℚ) :=
  (xs.take (i + 1)).drop (i + 1 - w)

/-- The non-null observations inside the trailing window. -/
def windowObs (xs : List (Option ℚ)) (w i : Nat) : List ℚ :=
  (trailingWindow xs w i).filterMap id

/-- Column `rolling_mean` (line 426). -/
def rolling_mean (xs : List (Option ℚ)) (w i : Nat) : Option ℚ :=
  if (windowObs xs w i).length < 5 then none
  else some ((windowObs xs w i).sum / ((windowObs xs w i).length : ℚ))

/-- Sample variance of the trailing window, the square of the `std`
aggregation pandas performs in line 429. -/
def rolling_var (xs : List (Option ℚ)) (w i : Nat) : Option ℚ :=
  if (windowObs xs w i).length < 5 then none
  else some
    (((windowObs xs w i).map
      (fun x => (x - (windowObs xs w i).sum / ((windowObs xs w i).length : ℚ)) ^ 2)).sum /
        (((windowObs xs w i).length : ℚ) - 1))

/-- Column `rolling_std` (line 429). -/
noncomputable def rolling_std (xs : List (Option ℚ)) (w i : Nat) : Option ℝ :=
  (rolling_var xs w i).map (fun v => Real.sqrt (v : ℝ))

/-- IEEE float value of the elementwise z-score division (line 433):
pandas propagates NaN operands, and float division by zero yields NaN for
a zero numerator and a signed infinity otherwise. -/
inductive FVal where
  | nan : FVal
  | fin : ℝ → FVal
  | pinf : FVal
  | ninf : FVal

/-- Column `z_score` (line 433): `(average - rolling_mean) / rolling_std`
computed elementwise with IEEE semantics. -/
noncomputable def z_score (xs : List (Option ℚ)) (w i : Nat) : FVal :=
  match rolling_mean xs w i with
  | none => FVal.nan
  | some m =>
    match rolling_std xs w i with
    | none => FVal.nan
    | some s =>
      match xs.getD i none with
      | none => FVal.nan
      | some a =>
        if s = 0 then
          (if ((a : ℝ) - (m : ℝ)) = 0 then FVal.nan
           else if 0 < ((a : ℝ) - (m : ℝ)) then FVal.pinf else FVal.ninf)
        else FVal.fin (((a : ℝ) - (m : ℝ)) / s)

/-- Column `upper_band` (line 435): `rolling_mean + 2 * rolling_std`,
null when an operand is null. -/
noncomputable def upper_band (xs : List (Option ℚ)) (w i : Nat) : Option ℝ :=
  match rolling_mean xs w i, rolling_std xs w i with
  | some m, some s => some ((m : ℝ) + 2 * s)
  | _, _ => none

/-- Column `lower_band` (line 436): `rolling_mean - 2 * rolling_std`. -/
noncomputable def lower_band (xs : List (Option ℚ)) (w i : Nat) : Option ℝ :=
  match rolling_mean xs w i, rolling_std xs w i with
  | some m, some s => some ((m : ℝ) - 2 * s)
  | _, _ => none

lemma windowObs_replicate (c : ℚ) (n w i : Nat) (hin : i < n) :
    windowObs (List.replicate n (some c)) w i = List.replicate (min (i + 1) w) c := by
  have hmap : ∀ k : Nat, (List.replicate k (some c)).filterMap id = List.replicate k c := by
    intro k
    induction k with
    | zero => rfl
    | succ j ihj => simp [List.replicate_succ, ihj]
  unfold windowObs trailingWindow
  rw [List.take_replicate, Nat.min_eq_left (by omega), List.drop_replicate, hmap]
  congr 1
  omega

/-- On a fully present constant series every eligible window has mean `c`
and sample variance `0`. -/
lemma rolling_stats_const (c : ℚ) (n w i : Nat) (hw : 5 ≤ w) (hi : 4 ≤ i)
    (hin : i < n) :
    rolling_mean (List.replicate n (some c)) w i = some c ∧
    rolling_var (List.replicate n (some c)) w i = some 0 := by
  have hobs := windowObs_replicate c n w i hin
  have hk5 : 5 ≤ min (i + 1) w := by omega
  have hlen : (windowObs (List.replicate n (some c)) w i).length = min (i + 1) w := by
    rw [hobs]; simp
  have hnlt : ¬ ((windowObs (List.replicate n (some c)) w i).length < 5) := by omega
  have hkq : ((min (i + 1) w : Nat) : ℚ) ≠ 0 := by
    have : (0 : Nat) < min (i + 1) w := by omega
    exact_mod_cast Nat.pos_iff_ne_zero.mp this
  have hsum : (windowObs (List.replicate n (some c)) w i).sum = ((min (i + 1) w : ℕ) : ℚ) * c := by
    rw [hobs, List.sum_replicate, nsmul_eq_mul]
  have hmean : (windowObs (List.replicate n (some c)) w i).sum /
      ((windowObs (List.replicate n (some c)) w i).length : ℚ) = c := by
    rw [hsum, hlen]
    field_simp
  constructor
  · rw [rolling_mean, if_neg hnlt, hmean]
  · rw [rolling_var, if_neg hnlt]
    congr 1
    have hzero : (windowObs (List.replicate n (some c)) w i).map
        (fun x => (x - (windowObs (List.replicate n (some c)) w i).sum /
          ((windowObs (List.replicate n (some c)) w i).length : ℚ)) ^ 2) =
        List.replicate (min (i + 1) w) 0 := by
      rw [hmean]
      rw [hobs, List.map_replicate]
      simp
    rw [hzero, List.sum_replicate]
    simp

/-- C3: the feature engine satisfies the null-propagation postcondition.
Whenever the trailing window at a row holds fewer than five non-null
`average` values (`min_periods = 5` in the code), `rolling_mean`,
`rolling_std`, `z_score`, `upper_band` and `lower_band` are all null; and
on a constant-price series of length at least five, every eligible
position has `rolling_std = 0` and a null `z_score` — NaN from the 0/0
division, never an infinity. -/
theorem compute_features_null_propagation_and_constant_series :
    (∀ (xs : List (Option ℚ)) (w i : Nat), (windowObs xs w i).length < 5 →
      rolling_mean xs w i = none ∧ rolling_std xs w i = none ∧
      z_score xs w i = FVal.nan ∧ upper_band xs w i = none ∧
      lower_band xs w i = none) ∧
    (∀ (c : ℚ) (n w i : Nat), 5 ≤ w → 4 ≤ i → i < n →
      rolling_std (List.replicate n (some c)) w i = some 0 ∧
      z_score (List.replicate n (some c)) w i = FVal.nan) := by
  constructor
  · intro xs w i h
    have hm : rolling_mean xs w i = none := by rw [rolling_mean, if_pos h]
    have hv : rolling_var xs w i = none := by rw [rolling_var, if_pos h]
    have hs : rolling_std xs w i = none := by rw [rolling_std, hv]; rfl
    exact ⟨hm, hs, by rw [z_score, hm], by rw [upper_band, hm],
      by rw [lower_band, hm]⟩
  · intro c n w i hw hi hin
    obtain ⟨hm, hv⟩ := rolling_stats_const c n w i hw hi hin
    have hs : rolling_std (List.replicate n (some c)) w i = some 0 := by
      rw [rolling_std, hv]
      simp
    have ha : (List.replicate n (some c)).getD i none = some c := by
      rw [List.getD_eq_getElem?_getD, List.getElem?_replicate, if_pos hin]
      rfl
    refine ⟨hs, ?_⟩
    rw [z_score, hm, hs, ha]
    simp

/-- Witness for C3: a one-row series has everything null; the constant
series `[10, 10, 10, 10, 10]` with window 30 has standard deviation 0 and
a null z-score at its last row. -/
theorem compute_features_null_propagation_witness :
    ((windowObs [some (1 : ℚ)] 30 0).length < 5 ∧
      rolling_mean [some (1 : ℚ)] 30 0 = none ∧
      rolling_std [some (1 : ℚ)] 30 0 = none ∧
      z_score [some (1 : ℚ)] 30 0 = FVal.nan ∧
      upper_band [some (1 : ℚ)] 30 0 = none ∧
      lower_band [some (1 : ℚ)] 30 0 = none) ∧
    (rolling_std (List.replicate 5 (some (10 : ℚ))) 30 4 = some 0 ∧
      z_score (List.replicate 5 (some (10 : ℚ))) 30 4 = FVal.nan) :=
  ⟨⟨by decide,
    compute_features_null_propagation_and_constant_series.1 [some (1 : ℚ)] 30 0 (by decide)⟩,
    compute_features_null_propagation_and_constant_series.2 10 5 30 4 (by omega) (by omega)
      (by omega)⟩

/-! ## Signal classifier (split_buy_sell_opportunities,
src/market_analyzer.py lines 217-245) -/

/-- A feature row as consumed by the classifier: group identity, date and
the columns the function reads.  A NaN cell is `none`; the feature engine
verified above never produces an infinity (its 0/0 artifact is NaN), so
finite rationals cover its reachable values.  `volume` is a nullable
non-negative integer per the store schema. -/
structure FeatureRow where
  region_id : Nat
  type_id : Nat
  date : Nat
  average : Option ℚ
  volume : Option Nat
  rolling_mean : Option ℚ
  rolling_std : Option ℚ
  z_score : Option ℚ
deriving DecidableEq

/-- Date order used by `sort_values("date")` (line 229). -/
def dateLe (a b : FeatureRow) : Prop := a.date ≤ b.date

instance : DecidableRel dateLe := fun a b => Nat.decLe a.date b.date

instance : IsTotal FeatureRow dateLe := ⟨fun a b => Nat.le_total a.date b.date⟩

instance : IsTrans FeatureRow dateLe := ⟨fun _ _ _ hab hbc => Nat.le_trans hab hbc⟩

/-- The `(region_id, type_id)` grouping key of lines 229-231. -/
def groupKey (r : FeatureRow) : Nat × Nat := (r.region_id, r.type_id)

/-- Embedding of `groupby(key).tail(1)` over a frame in its current row order: keep a
row iff no later row carries the same key, i.e. the last row of each
group. -/
def lastPerKey {α κ : Type _} [DecidableEq κ] (key : α → κ) : List α → List α
  | [] => []
  | r :: rest =>
    if rest.any (fun x => key x = key r) then lastPerKey key rest
    else r :: lastPerKey key rest

/-- Lines 229-231: sort by date, then keep the latest row of every
(region, type) group. -/
def latestRows (rows : List FeatureRow) : List FeatureRow :=
  lastPerKey groupKey (List.insertionSort dateLe rows)

/-- Line 232: `dropna(subset=["rolling_mean", "rolling_std", "z_score"])`. -/
def dropnaStats (rows : List FeatureRow) : List FeatureRow :=
  rows.filter (fun r =>
    r.rolling_mean.isSome && r.rolling_std.isSome && r.z_score.isSome)

/-- Ranking key of lines 238-242: the code orders each list by descending
`score = |z| * volume ** 0.5` (missing volume as 0).  Both factors are
non-negative, so that order coincides with descending `z ** 2 * volume`,
which stays inside the rationals; the derived helper columns `abs_z` and
`score` the code attaches to the frames are projections and are not
carried. -/
def scoreKey (r : FeatureRow) : ℚ := (r.z_score.getD 0) ^ 2 * ((r.volume.getD 0 : ℚ))

/-- Descending score order used by `sort_values("score", ascending=False)`. -/
def scoreGe (a b : FeatureRow) : Prop := scoreKey b ≤ scoreKey a

instance : DecidableRel scoreGe := fun a b => inferInstanceAs (Decidable (scoreKey b ≤ scoreKey a))

/-- Embedding of `split_buy_sell_opportunities` (lines 217-245): reduce to
the latest row per (region, type) group, drop rows with a null statistic,
split by the z-score threshold and rank each list by descending score. -/
def split_buy_sell_opportunities (rows : List FeatureRow) (t : ℚ) :
    List FeatureRow × List FeatureRow :=
  let kept := dropnaStats (latestRows rows)
  let buy := kept.filter (fun r => r.z_score.getD 0 ≤ -t)
  let sell := kept.filter (fun r => t ≤ r.z_score.getD 0)
  (List.insertionSort scoreGe buy, List.insertionSort scoreGe sell)

lemma lastPerKey_subset {α κ : Type _} [DecidableEq κ] (key : α → κ) :
    ∀ l : List α, ∀ r ∈ lastPerKey key l, r ∈ l := by
  intro l
  induction l with
  | nil => intro r hr; simp [lastPerKey] at hr
  | cons a rest ih =>
    intro r hr
    by_cases h : rest.any (fun x => key x = key a)
    · rw [lastPerKey, if_pos h] at hr
      exact List.mem_cons_of_mem a (ih r hr)
    · rw [lastPerKey, if_neg h] at hr
      rcases List.mem_cons.mp hr with rfl | hr
      · exact List.mem_cons_self r rest
      · exact List.mem_cons_of_mem a (ih r hr)

lemma lastPerKey_max_date :
    ∀ l : List FeatureRow, l.Sorted dateLe →
      ∀ r ∈ lastPerKey groupKey l, ∀ q ∈ l, groupKey q = groupKey r →
        q.date ≤ r.date := by
  intro l
  induction l with
  | nil => intro _ r hr; simp [lastPerKey] at hr
  | cons a rest ih =>
    intro hs r hr q hq hkey
    have ha : ∀ b ∈ rest, dateLe a b := (List.sorted_cons.mp hs).1
    have hrest : rest.Sorted dateLe := (List.sorted_cons.mp hs).2
    by_cases h : rest.any (fun x => groupKey x = groupKey a)
    · rw [lastPerKey, if_pos h] at hr
      rcases List.mem_cons.mp hq with rfl | hq
      · exact ha r (lastPerKey_subset groupKey rest r hr)
      · exact ih hrest r hr q hq hkey
    · rw [lastPerKey, if_neg h] at hr
      have hnone : ∀ x ∈ rest, groupKey x ≠ groupKey a := by
        intro x hx
        have := List.any_eq_true.not.mp h
        push_neg at this
        have hx' := this x hx
        simpa using hx'
      rcases List.mem_cons.mp hr with hra | hr'
      · rcases List.mem_cons.mp hq with hqa | hq'
        · rw [hqa, hra]
        · exact absurd (by rw [hkey, hra]) (hnone q hq')
      · rcases List.mem_cons.mp hq with hqa | hq'
        · rw [hqa]
          exact ha r (lastPerKey_subset groupKey rest r hr')
        · exact ih hrest r hr' q hq' hkey

lemma lastPerKey_complete {α κ : Type _} [DecidableEq κ] (key : α → κ) :
    ∀ l : List α, ∀ q ∈ l, ∃ r ∈ lastPerKey key l, key r = key q := by
  intro l
  induction l with
  | nil => intro q hq; simp at hq
  | cons a rest ih =>
    intro q hq
    by_cases h : rest.any (fun x => key x = key a)
    · rw [lastPerKey, if_pos h]
      rcases List.mem_cons.mp hq with rfl | hq
      · rcases List.any_eq_true.mp h with ⟨x, hx, hxk⟩
        rcases ih x hx with ⟨r, hr, hrk⟩
        exact ⟨r, hr, by rw [hrk]; exact of_decide_eq_true hxk⟩
      · exact ih q hq
    · rw [lastPerKey, if_neg h]
      rcases List.mem_cons.mp hq with rfl | hq
      · exact ⟨q, by simp, rfl⟩
      · rcases ih q hq with ⟨r, hr, hrk⟩
        exact ⟨r, by simp [hr], hrk⟩

/-- C4 (amended): the classifier first reduces to the latest
(maximum-date) row per (region, item) group and discards rows with a null
among rolling_mean, rolling_std, z_score; a retained row is in the BUY
list iff its z-score is at most minus the threshold and in the SELL list
iff its z-score is at least the threshold; and, provided the threshold is
positive, no single observation appears in both lists. -/
theorem split_buy_sell_membership (rows : List FeatureRow) (t : ℚ) :
    (∀ r, r ∈ (split_buy_sell_opportunities rows t).1 ↔
      r ∈ dropnaStats (latestRows rows) ∧ r.z_score.getD 0 ≤ -t) ∧
    (∀ r, r ∈ (split_buy_sell_opportunities rows t).2 ↔
      r ∈ dropnaStats (latestRows rows) ∧ t ≤ r.z_score.getD 0) ∧
    (∀ r ∈ dropnaStats (latestRows rows),
      r.rolling_mean ≠ none ∧ r.rolling_std ≠ none ∧ r.z_score ≠ none) ∧
    (∀ r ∈ latestRows rows, r ∈ rows ∧
      ∀ q ∈ rows, groupKey q = groupKey r → q.date ≤ r.date) ∧
    (∀ q ∈ rows, ∃ r ∈ latestRows rows, groupKey r = groupKey q) ∧
    (0 < t → ∀ r, ¬ (r ∈ (split_buy_sell_opportunities rows t).1 ∧
      r ∈ (split_buy_sell_opportunities rows t).2)) := by
  have hbuy : ∀ r, r ∈ (split_buy_sell_opportunities rows t).1 ↔
      r ∈ dropnaStats (latestRows rows) ∧ r.z_score.getD 0 ≤ -t := by
    intro r
    unfold split_buy_sell_opportunities
    rw [List.mem_insertionSort, List.mem_filter]
    simp [decide_eq_true_eq]
  have hsell : ∀ r, r ∈ (split_buy_sell_opportunities rows t).2 ↔
      r ∈ dropnaStats (latestRows rows) ∧ t ≤ r.z_score.getD 0 := by
    intro r
    unfold split_buy_sell_opportunities
    rw [List.mem_insertionSort, List.mem_filter]
    simp [decide_eq_true_eq]
  refine ⟨hbuy, hsell, ?_, ?_, ?_, ?_⟩
  · intro r hr
    unfold dropnaStats at hr
    rw [List.mem_filter] at hr
    have hc := hr.2
    simp only [Bool.and_eq_true, Option.isSome_iff_ne_none] at hc
    exact ⟨hc.1.1, hc.1.2, hc.2⟩
  · intro r hr
    unfold latestRows at hr
    constructor
    · have := lastPerKey_subset groupKey _ r hr
      rw [List.mem_insertionSort] at this
      exact this
    · intro q hq hkey
      exact lastPerKey_max_date (List.insertionSort dateLe rows)
        (List.sorted_insertionSort dateLe rows) r hr q
        ((List.mem_insertionSort dateLe).mpr hq) hkey
  · intro q hq
    exact lastPerKey_complete groupKey (List.insertionSort dateLe rows) q
      ((List.mem_insertionSort dateLe).mpr hq)
  · intro ht r ⟨hb, hs⟩
    have h1 := (hbuy r).mp hb
    have h2 := (hsell r).mp hs
    have : t ≤ -t := le_trans h2.2 h1.2
    linarith

/-- A single fully formed observation whose z-score is exactly zero. -/
def zeroZRow : FeatureRow :=
  ⟨ 1, 1, 1, some 1, some 1, some 1, some 1, some 0⟩

/-- C4 counterexample: with threshold 0 (the claim quantifies over every
threshold) a retained row with z-score 0 satisfies both `z ≤ -threshold`
and `z ≥ threshold`, so the same observation appears in both the BUY and
the SELL list, refuting "no single observation appears in both lists". -/
theorem split_buy_sell_both_lists_counterexample :
    zeroZRow ∈ (split_buy_sell_opportunities [zeroZRow] 0).1 ∧
    zeroZRow ∈ (split_buy_sell_opportunities [zeroZRow] 0).2 := by
  constructor <;> decide

/-- Witness for C4 at a positive threshold: the membership biconditional
at the zero-z row and the disjointness of the two lists. -/
theorem split_buy_sell_membership_witness :
    (zeroZRow ∈ (split_buy_sell_opportunities [zeroZRow] 1).1 ↔
      zeroZRow ∈ dropnaStats (latestRows [zeroZRow]) ∧
        zeroZRow.z_score.getD 0 ≤ -1) ∧
    ¬ (zeroZRow ∈ (split_buy_sell_opportunities [zeroZRow] 1).1 ∧
      zeroZRow ∈ (split_buy_sell_opportunities [zeroZRow] 1).2) :=
  ⟨(split_buy_sell_membership [zeroZRow] 1).1 zeroZRow,
    (split_buy_sell_membership [zeroZRow] 1).2.2.2.2.2 (by norm_num) zeroZRow⟩

/-! ## Persistent store (store_market_history,
src/analyzer/market_analyzer.py lines 284-312, textually identical in
src/market_analyzer.py lines 139-167; schema from init_db, lines 242-281)

`store_market_history` opens a connection, executes one
`INSERT OR REPLACE` per history entry keyed by the primary key
(region_id, type_id, date), then commits once and closes.  The embedding
models the SQLite semantics the code relies on: `INSERT OR REPLACE`
deletes the row with the conflicting key and appends the new row; a NULL
in the NOT NULL primary-key column `date` makes the statement raise
(REPLACE falls back to ABORT when the violating column has no default);
and because `conn.commit()` is only reached after the loop, a raised
statement leaves the on-disk store unchanged — the implicit transaction
sqlite3 opened at the first INSERT is never committed. -/

/-- One entry of a fetched history payload; each field is read with
`entry.get(...)` and may be absent. -/
structure HistEntry where
  date : Option Nat
  order_count : Option Int
  volume : Option Nat
  highest : Option ℚ
  lowest : Option ℚ
  average : Option ℚ
deriving DecidableEq

/-- A committed row of the `market_history` table: the primary-key
columns region_id, type_id, date are NOT NULL, the measure columns are
nullable.  Dates (ISO strings in the code) are modelled by naturals,
preserving their total order. -/
structure HistRow where
  region_id : Nat
  type_id : Nat
  date : Nat
  order_count : Option Int
  volume : Option Nat
  highest : Option ℚ
  lowest : Option ℚ
  average : Option ℚ
deriving DecidableEq

/-- The primary key (region_id, type_id, date). -/
def histKey (r : HistRow) : Nat × Nat × Nat := (r.region_id, r.type_id, r.date)

/-- Embedding of `INSERT OR REPLACE`: drop the row holding the conflicting key, append
the new row. -/
def upsertRow (store : List HistRow) (r : HistRow) : List HistRow :=
  (store.filter (fun x => decide (¬ histKey x = histKey r))) ++ [r]

/-- The row written for a history entry whose date is present. -/
def rowOfEntry (region_id type_id d : Nat) (e : HistEntry) : HistRow :=
  ⟨ region_id, type_id, d, e.order_count, e.volume, e.highest, e.lowest, e.average⟩

/-- The `for entry in history` loop (lines 294-309): upsert each entry in
order; an absent date raises (`Except.error`), aborting the loop before
the commit. -/
def insertEntries (region_id type_id : Nat) :
    List HistRow → List HistEntry → Except Unit (List HistRow)
  | store, [] => Except.ok store
  | store, e :: rest =>
    match e.date with
    | none => Except.error ()
    | some d =>
      insertEntries region_id type_id (upsertRow store (rowOfEntry region_id type_id d e))
        rest

/-- Embedding of `store_market_history` (lines 284-312): `.ok s` is the
committed store after the single `conn.commit()`, `.error ()` the raised
exception with no commit. -/
def store_market_history (region_id type_id : Nat) (history : List HistEntry)
    (store : List HistRow) : Except Unit (List HistRow) :=
  insertEntries region_id type_id store history

/-- The on-disk store after a call to `store_market_history`: the
committed result, or the unchanged previous store when the call raised. -/
def runStore (region_id type_id : Nat) (history : List HistEntry)
    (store : List HistRow) : List HistRow :=
  match store_market_history region_id type_id history store with
  | Except.ok s => s
  | Except.error _ => store

/-- The rows a batch writes, in order, skipping nothing (entries without
a date never reach a row because the loop raises first). -/
def batchRows (region_id type_id : Nat) (history : List HistEntry) : List HistRow :=
  history.filterMap (fun e => e.date.map (fun d => rowOfEntry region_id type_id d e))

lemma insertEntries_ok (region_id type_id : Nat) :
    ∀ (history : List HistEntry) (store : List HistRow),
      (∀ e ∈ history, e.date ≠ none) →
      insertEntries region_id type_id store history =
        Except.ok ((batchRows region_id type_id history).foldl upsertRow store) := by
  intro history
  induction history with
  | nil => intro store _; rfl
  | cons e rest ih =>
    intro store h
    cases hd : e.date with
    | none => exact absurd hd (h e (by simp))
    | some d =>
      rw [insertEntries, hd]
      show insertEntries region_id type_id
        (upsertRow store (rowOfEntry region_id type_id d e)) rest = _
      rw [ih _ (fun x hx => h x (by simp [hx]))]
      unfold batchRows
      rw [List.filterMap_cons]
      simp [hd, List.foldl_cons]

lemma insertEntries_error (region_id type_id : Nat) :
    ∀ (history : List HistEntry) (store : List HistRow),
      (∃ e ∈ history, e.date = none) →
      insertEntries region_id type_id store history = Except.error () := by
  intro history
  induction history with
  | nil => intro store h; simp at h
  | cons e rest ih =>
    intro store h
    cases hd : e.date with
    | none => rw [insertEntries, hd]
    | some d =>
      rw [insertEntries, hd]
      show insertEntries region_id type_id
        (upsertRow store (rowOfEntry region_id type_id d e)) rest = _
      apply ih
      rcases h with ⟨x, hx, hxd⟩
      rcases List.mem_cons.mp hx with rfl | hx
      · exact absurd hd (by rw [hxd]; simp)
      · exact ⟨x, hx, hxd⟩

lemma foldl_upsert_keys :
    ∀ (rs store : List HistRow) (x : HistRow),
      x ∈ rs.foldl upsertRow store → x ∈ store ∨ histKey x ∈ rs.map histKey := by
  intro rs
  induction rs with
  | nil => intro store x hx; exact Or.inl hx
  | cons r rest ih =>
    intro store x hx
    rw [List.foldl_cons] at hx
    rcases ih _ x hx with hx' | hk
    · unfold upsertRow at hx'
      rcases List.mem_append.mp hx' with hf | hr
      · exact Or.inl (List.mem_of_mem_filter hf)
      · have hxr : x = r := by simpa using hr
        subst hxr
        exact Or.inr (by simp)
    · exact Or.inr (by simp [hk])

/-- Replaying a write sequence factors the store into the rows it left
untouched and the rows the sequence itself produces. -/
lemma foldl_upsert_decomp :
    ∀ (rs store : List HistRow),
      rs.foldl upsertRow store =
        store.filter (fun x => decide (histKey x ∉ rs.map histKey)) ++
          rs.foldl upsertRow [] := by
  intro rs
  induction rs with
  | nil => intro store; simp
  | cons r rest ih =>
    intro store
    rw [List.foldl_cons, ih (upsertRow store r), List.foldl_cons,
      ih (upsertRow [] r)]
    have h0 : upsertRow [] r = [r] := rfl
    rw [h0]
    unfold upsertRow
    rw [List.filter_append, List.filter_filter, List.append_assoc]
    congr 1
    apply List.filter_congr
    intro x _
    by_cases h1 : histKey x = histKey r <;> by_cases h2 : histKey x ∈ rest.map histKey <;>
      simp [h1, h2]

lemma foldl_upsert_idem (rs store : List HistRow) :
    rs.foldl upsertRow (rs.foldl upsertRow store) = rs.foldl upsertRow store := by
  rw [foldl_upsert_decomp rs (rs.foldl upsertRow store), foldl_upsert_decomp rs store,
    List.filter_append, List.filter_filter]
  have h1 : store.filter (fun x =>
      decide (histKey x ∉ rs.map histKey) && decide (histKey x ∉ rs.map histKey)) =
      store.filter (fun x => decide (histKey x ∉ rs.map histKey)) := by
    apply List.filter_congr
    intro x _
    by_cases h : histKey x ∈ rs.map histKey <;> simp [h]
  have h2 : (rs.foldl upsertRow []).filter
      (fun x => decide (histKey x ∉ rs.map histKey)) = [] := by
    rw [List.filter_eq_nil_iff]
    intro x hx
    rcases foldl_upsert_keys rs [] x hx with h | h
    · simp at h
    · simp [h]
  rw [h1, h2]
  simp

lemma runStore_ok (region_id type_id : Nat) (history : List HistEntry)
    (store : List HistRow) (h : ∀ e ∈ history, e.date ≠ none) :
    runStore region_id type_id history store =
      (batchRows region_id type_id history).foldl upsertRow store := by
  unfold runStore store_market_history
  rw [insertEntries_ok region_id type_id history store h]

lemma runStore_error (region_id type_id : Nat) (history : List HistEntry)
    (store : List HistRow) (h : ∃ e ∈ history, e.date = none) :
    runStore region_id type_id history store = store := by
  unfold runStore store_market_history
  rw [insertEntries_error region_id type_id history store h]

/-- C8: `store_market_history` is idempotent on the persisted store —
applying the same history batch twice leaves exactly the rows (count and
field values) of a single application, because every record is keyed by
(region, item, date) and an existing row for that key is fully
overwritten.  This covers raising batches as well: a batch that raises
changes nothing either time. -/
theorem store_market_history_idempotent (region_id type_id : Nat)
    (history : List HistEntry) (store : List HistRow) :
    runStore region_id type_id history
        (runStore region_id type_id history store) =
      runStore region_id type_id history store := by
  by_cases h : ∀ e ∈ history, e.date ≠ none
  · rw [runStore_ok region_id type_id history store h,
      runStore_ok region_id type_id history _ h]
    exact foldl_upsert_idem _ _
  · have h' : ∃ e ∈ history, e.date = none := by
      push_neg at h
      exact h
    rw [runStore_error region_id type_id history store h',
      runStore_error region_id type_id history store h']

/-- C10: the store commit is atomic per batch — with every record's date
present the whole batch commits as one fold of keyed overwrites, and if
any record lacks its date (violating the NOT NULL primary-key column of
`init_db`) the call raises and the store is byte-for-byte unchanged: no
row of the batch is persisted, because the single `conn.commit()` after
the loop is never reached. -/
theorem store_market_history_atomic (region_id type_id : Nat)
    (history : List HistEntry) (store : List HistRow) :
    ((∀ e ∈ history, e.date ≠ none) →
      store_market_history region_id type_id history store =
        Except.ok ((batchRows region_id type_id history).foldl upsertRow store)) ∧
    ((∃ e ∈ history, e.date = none) →
      store_market_history region_id type_id history store = Except.error () ∧
      runStore region_id type_id history store = store) :=
  ⟨insertEntries_ok region_id type_id history store,
    fun h => ⟨insertEntries_error region_id type_id history store h,
      runStore_error region_id type_id history store h⟩⟩

/-- A payload entry with no date field. -/
def badEntry : HistEntry := ⟨none, none, none, none, none, none⟩

/-- A fully populated payload entry. -/
def goodEntry : HistEntry := ⟨some 7, some 2, some 3, some 4, some 5, some 6⟩

/-- Witness for C10: a batch holding a dateless record raises and leaves
the empty store empty — the valid record before it is not persisted — and
an all-valid batch commits. -/
theorem store_market_history_atomic_witness :
    store_market_history 10000002 34 [goodEntry, badEntry] [] = Except.error () ∧
    runStore 10000002 34 [goodEntry, badEntry] [] = [] ∧
    store_market_history 10000002 34 [goodEntry] [] =
      Except.ok ((batchRows 10000002 34 [goodEntry]).foldl upsertRow []) := by
  refine ⟨?_, ?_, ?_⟩
  · exact ((store_market_history_atomic 10000002 34 [goodEntry, badEntry] []).2
      ⟨badEntry, by simp, rfl⟩).1
  · exact ((store_market_history_atomic 10000002 34 [goodEntry, badEntry] []).2
      ⟨badEntry, by simp, rfl⟩).2
  · exact (store_market_history_atomic 10000002 34 [goodEntry] []).1
      (fun e he => by
        rcases List.mem_cons.mp he with rfl | hh
        · simp [goodEntry]
        · simp at hh)

/-! ## Downstream query (load_latest_analyzed, src/backend/database.py
lines 8-26, behind the `/api/undervalued` route of src/backend/app.py)

The backend loads the entire `market_history` table, sorts it by date,
keeps the last row per `type_id`, filters by volume, and only then
computes `rolling_mean`, `rolling_std` and `z_score` with
`rolling(30, min_periods=5)` over that already reduced frame: the rolling
window ranges over the latest rows of *different* items, in cross-item
date order, not over any per-(region, item) price series.  It finally
keeps rows with negative z-score (a NaN z compares false and is dropped),
sorts ascending by z-score and truncates to `limit`.  The embedding
returns each surviving row paired with its computed z-score; the
`rolling_mean`, `rolling_std` and `pct_diff` columns also present in the
returned records are determined by the same reduced frame and are not
part of the selection contract under scrutiny. -/

/-- Date order on stored rows, `sort_values("date")` on line 14. -/
def hdateLe (a b : HistRow) : Prop := a.date ≤ b.date

instance : DecidableRel hdateLe := fun a b => Nat.decLe a.date b.date

instance : IsTotal HistRow hdateLe := ⟨fun a b => Nat.le_total a.date b.date⟩

instance : IsTrans HistRow hdateLe := ⟨fun _ _ _ h1 h2 => Nat.le_trans h1 h2⟩

/-- Embedding of `df["volume"] >= min_volume` (line 16): a null volume compares false
and the row is dropped. -/
def volumeAtLeast (min_volume : Nat) (r : HistRow) : Bool :=
  match r.volume with
  | none => false
  | some v => min_volume ≤ v

/-- Embedding of `df["z_score"] < 0` (line 23) on an IEEE value: NaN and positive
infinity compare false, negative infinity true. -/
noncomputable def fvalNeg : FVal → Bool
  | FVal.nan => false
  | FVal.pinf => false
  | FVal.ninf => true
  | FVal.fin x => decide (x < 0)

/-- Rank separating the non-finite classes for the z-score sort order:
pandas places NaN last and the infinities at the extremes. -/
def fvalRank : FVal → Nat
  | FVal.ninf => 0
  | FVal.fin _ => 1
  | FVal.pinf => 2
  | FVal.nan => 3

/-- Ascending z-score order used by `sort_values("z_score")` (line 24). -/
noncomputable def fvalLe (a b : FVal) : Prop :=
  match a, b with
  | FVal.fin x, FVal.fin y => x ≤ y
  | a, b => fvalRank a ≤ fvalRank b

noncomputable instance : DecidableRel fvalLe := fun _ _ => Classical.propDecidable _

/-- Row order by computed z-score. -/
noncomputable def zLe (a b : HistRow × FVal) : Prop := fvalLe a.2 b.2

noncomputable instance : DecidableRel zLe := fun _ _ => Classical.propDecidable _

/-- Lines 14-15: sort the loaded table by date and keep the last row per
`type_id`. -/
def latestByType (store : List HistRow) : List HistRow :=
  lastPerKey (fun r => r.type_id) (List.insertionSort hdateLe store)

/-- Line 16: the volume filter over the latest rows. -/
def volFiltered (store : List HistRow) (min_volume : Nat) : List HistRow :=
  (latestByType store).filter (volumeAtLeast min_volume)

/-- Lines 18-20: the z-scores the backend computes, one per row of the
reduced frame, rolling over the reduced frame's own `average` column. -/
noncomputable def backendZs (store : List HistRow) (min_volume : Nat) : List FVal :=
  (List.range (volFiltered store min_volume).length).map
    (fun i => z_score ((volFiltered store min_volume).map (fun r => r.average)) 30 i)

/-- Embedding of `load_latest_analyzed` (src/backend/database.py lines
8-26): reduce to the latest row per item, filter by volume, compute the
cross-item rolling z-scores, keep negative ones, sort ascending by
z-score, truncate to `limit`. -/
noncomputable def load_latest_analyzed (store : List HistRow)
    (min_volume limit : Nat) : List (HistRow × FVal) :=
  (List.insertionSort zLe
    (((volFiltered store min_volume).zip (backendZs store min_volume)).filter
      (fun p => fvalNeg p.2))).take limit

/-- Five items, one stored day each: items 1-4 trade at 100, item 5 at
10, all with ample volume. -/
def c9Row (k : Nat) (price : ℚ) : HistRow :=
  ⟨ 10000002, k, k, some 10, some 100, some price, some price, some price⟩

/-- The failing store for C9. -/
def c9Store : List HistRow :=
  [c9Row 1 100, c9Row 2 100, c9Row 3 100, c9Row 4 100, c9Row 5 10]

/-- The `average` column of the reduced frame the backend rolls over. -/
def c9Avgs : List (Option ℚ) :=
  [some 100, some 100, some 100, some 100, some 10]

/-- The z-score the backend assigns to item 5: a cross-item statistic
mixing four rows of other items with one row of item 5. -/
noncomputable def c9z : ℝ :=
  (((10 : ℚ) : ℝ) - ((82 : ℚ) : ℝ)) / Real.sqrt (((1620 : ℚ) : ℝ))

lemma c9_sqrt_ne_zero : Real.sqrt (((1620 : ℚ) : ℝ)) ≠ 0 := by
  have h : (0 : ℝ) < ((1620 : ℚ) : ℝ) := by norm_num
  exact ne_of_gt (Real.sqrt_pos.mpr h)

lemma c9z_neg : c9z < 0 := by
  unfold c9z
  apply div_neg_of_neg_of_pos
  · norm_num
  · apply Real.sqrt_pos.mpr
    norm_num

lemma c9_z4 : z_score c9Avgs 30 4 = FVal.fin c9z := by
  have hobs : windowObs c9Avgs 30 4 = [100, 100, 100, 100, 10] := by
    unfold windowObs trailingWindow c9Avgs
    rfl
  have hm : rolling_mean c9Avgs 30 4 = some 82 := by
    rw [rolling_mean, hobs]
    norm_num
  have hv : rolling_var c9Avgs 30 4 = some 1620 := by
    rw [rolling_var, hobs]
    norm_num
  have hs : rolling_std c9Avgs 30 4 = some (Real.sqrt (((1620 : ℚ) : ℝ))) := by
    rw [rolling_std, hv]
    rfl
  have ha : c9Avgs.getD 4 none = some 10 := by decide
  rw [z_score, hm, hs, ha]
  simp [c9_sqrt_ne_zero, c9z]

lemma c9_backendZs : backendZs c9Store 50 =
    [FVal.nan, FVal.nan, FVal.nan, FVal.nan, FVal.fin c9z] := by
  have hvf : volFiltered c9Store 50 = c9Store := by decide
  unfold backendZs
  rw [hvf]
  have hmap : c9Store.map (fun r => r.average) = c9Avgs := by decide
  rw [hmap]
  show [z_score c9Avgs 30 0, z_score c9Avgs 30 1, z_score c9Avgs 30 2,
    z_score c9Avgs 30 3, z_score c9Avgs 30 4] = _
  rw [c9_z4]
  have hz0 : z_score c9Avgs 30 0 = FVal.nan := rfl
  have hz1 : z_score c9Avgs 30 1 = FVal.nan := rfl
  have hz2 : z_score c9Avgs 30 2 = FVal.nan := rfl
  have hz3 : z_score c9Avgs 30 3 = FVal.nan := rfl
  rw [hz0, hz1, hz2, hz3]

/-- C9: the backend query computes its z-score across the latest rows of
different items, not as the per-(region, item) series statistic of the
feature engine.  On `c9Store` every item's own series is a single day, so
the feature-engine z-score of every series is null and the specified
query would return nothing; the code instead rolls over the five latest
rows of five different items and returns item 5 as a negative-z result.
The second conjunct exhibits the per-series statistic of item 5's own
series: null. -/
theorem load_latest_analyzed_cross_series_leakage :
    (load_latest_analyzed c9Store 50 50).map (fun p => p.1.type_id) = [5] ∧
    z_score [some (10 : ℚ)] 30 0 = FVal.nan := by
  constructor
  · have hvf : volFiltered c9Store 50 = c9Store := by decide
    unfold load_latest_analyzed
    rw [hvf, c9_backendZs]
    have hzip : c9Store.zip [FVal.nan, FVal.nan, FVal.nan, FVal.nan, FVal.fin c9z] =
        [(c9Row 1 100, FVal.nan), (c9Row 2 100, FVal.nan), (c9Row 3 100, FVal.nan),
          (c9Row 4 100, FVal.nan), (c9Row 5 10, FVal.fin c9z)] := rfl
    rw [hzip]
    have hfil : [(c9Row 1 100, FVal.nan), (c9Row 2 100, FVal.nan),
        (c9Row 3 100, FVal.nan), (c9Row 4 100, FVal.nan),
        (c9Row 5 10, FVal.fin c9z)].filter (fun p => fvalNeg p.2) =
        [(c9Row 5 10, FVal.fin c9z)] := by
      simp [List.filter, fvalNeg, c9z_neg]
    rw [hfil]
    rfl
  · rfl

end EveMo
